import Mathlib

/-!
Shallow embedding of the resilience/streaming layer of the `fusion_client`
Python library (files `fusion_client/utils/retry.py`, `fusion_client/utils/cache.py`,
`fusion_client/utils/streaming.py`, `fusion_client/core/exceptions.py`),
together with theorems settling the frozen specification claims.

Conventions used throughout:
* wall-clock timestamps (`time.time()`) are modelled as natural numbers;
  Python's real-valued subtraction `now - t` only ever appears in comparisons
  of the form `now - t > bound` / `now - t <= bound`, where a negative
  difference behaves exactly like the truncated natural subtraction `0`,
  so `Nat` subtraction is faithful;
* raised exceptions are modelled with `Except`; an async function is
  modelled as a pure function of the data it reads at each suspension point
  (each fresh `time.time()` observation becomes the next element of an
  explicit list of observation times);
* Python dictionaries are modelled as association lists in insertion order
  (lookup returns the first matching binding; overwriting keeps position;
  fresh keys are appended at the end), which is exactly CPython's
  iteration-order contract.
-/

/-! ### Retry decorator — `fusion_client/utils/retry.py`, `with_retry` -/

/-- Result of running a `with_retry`-wrapped operation to completion:
either the operation's value, an exception propagated to the caller, or the
`None` the wrapper returns when the loop body never runs (`max_attempts = 0`:
the code's trailing `if last_exception` guard finds no exception). -/
inductive RetryResult (α ε : Type) where
  | ok (v : α)
  | raised (e : ε)
  | noAttempt
deriving DecidableEq, Repr

/-- One full run of `with_retry(...)`'s `async_wrapper` loop.
`op i` is the outcome of the `i`-th invocation of the wrapped function
(0-based, as in `for attempt in range(max_attempts)`);
`retryable e` models `isinstance(e, exceptions)` — whether except-clause
`except exceptions as e` catches `e`.  Backoff sleeps and jitter do not
affect control flow and are not modelled.  Returns the caller-visible
result paired with the number of invocations actually performed. -/
def retryLoop {α ε : Type} (retryable : ε → Bool) (op : Nat → Except ε α)
    (maxAttempts : Nat) : Nat → Nat → RetryResult α ε × Nat
  | attempt, invoked =>
    if _h : attempt < maxAttempts then
      match op attempt with
      | .ok v => (.ok v, invoked + 1)
      | .error e =>
        if retryable e then
          if attempt = maxAttempts - 1 then
            -- last attempt: bare `raise` re-raises the very exception `e`
            (.raised e, invoked + 1)
          else
            retryLoop retryable op maxAttempts (attempt + 1) (invoked + 1)
        else
          -- not caught by `except exceptions`: propagates immediately
          (.raised e, invoked + 1)
    else
      (.noAttempt, invoked)
termination_by attempt _ => maxAttempts - attempt

/-- Entry point of the wrapper: start at attempt 0 with no invocations yet. -/
def withRetry {α ε : Type} (retryable : ε → Bool) (op : Nat → Except ε α)
    (maxAttempts : Nat) : RetryResult α ε × Nat :=
  retryLoop retryable op maxAttempts 0 0

theorem retryLoop_allRetryableFail {α ε : Type} (retryable : ε → Bool)
    (op : Nat → Except ε α) (maxAttempts : Nat) :
    ∀ attempt invoked, attempt < maxAttempts →
    (∀ i, attempt ≤ i → i < maxAttempts → ∃ e, op i = .error e ∧ retryable e = true) →
    ∃ e, op (maxAttempts - 1) = .error e ∧
      retryLoop retryable op maxAttempts attempt invoked =
        (.raised e, invoked + (maxAttempts - attempt)) := by
  intro attempt invoked hlt hfail
  obtain ⟨e, he, hre⟩ := hfail attempt le_rfl hlt
  by_cases hlast : attempt = maxAttempts - 1
  · subst hlast
    refine ⟨e, he, ?_⟩
    rw [retryLoop]
    have h1 : maxAttempts - (maxAttempts - 1) = 1 := by omega
    rw [h1]
    simp [hlt, he, hre]
  · have hlt' : attempt + 1 < maxAttempts := by omega
    obtain ⟨e', he', hrun⟩ := retryLoop_allRetryableFail retryable op maxAttempts
      (attempt + 1) (invoked + 1) hlt'
      (fun i hi₁ hi₂ => hfail i (by omega) hi₂)
    refine ⟨e', he', ?_⟩
    rw [retryLoop]
    simp only [hlt, dif_pos, he, hre, if_pos, hlast, if_false, if_neg, hrun]
    have : invoked + 1 + (maxAttempts - (attempt + 1)) =
        invoked + (maxAttempts - attempt) := by omega
    rw [this]
termination_by attempt _ => maxAttempts - attempt

/-- C1: a wrapped operation that fails with a retryable error on every
invocation is invoked exactly `max_attempts` times and the caller receives
exactly the error of the final attempt, unwrapped; an operation whose first
invocation fails with a non-retryable error is invoked exactly once and that
error propagates immediately. -/
theorem with_retry_c1 {α ε : Type} (retryable : ε → Bool) (op : Nat → Except ε α)
    (maxAttempts : Nat) (hpos : 1 ≤ maxAttempts) :
    ((∀ i, i < maxAttempts → ∃ e, op i = .error e ∧ retryable e = true) →
      ∃ e, op (maxAttempts - 1) = .error e ∧
        withRetry retryable op maxAttempts = (.raised e, maxAttempts)) ∧
    (∀ e, op 0 = .error e → retryable e = false →
      withRetry retryable op maxAttempts = (.raised e, 1)) := by
  constructor
  · intro hfail
    obtain ⟨e, he, hrun⟩ := retryLoop_allRetryableFail retryable op maxAttempts 0 0
      (by omega) (fun i _ hi => hfail i hi)
    exact ⟨e, he, by simpa [withRetry] using hrun⟩
  · intro e he hnr
    rw [withRetry, retryLoop]
    simp [show 0 < maxAttempts by omega, he, hnr]

/-- Witness for C1 at a concrete operation: with `max_attempts = 3`,
an always-retryably-failing operation (errors numbered by attempt) is
invoked 3 times and raises error 2 (the third attempt's error); a
non-retryable first failure is raised after exactly one invocation. -/
theorem with_retry_c1_witness :
    (∃ e, (fun i => (Except.error i : Except Nat Unit)) (3 - 1) = .error e ∧
      withRetry (fun _ => true) (fun i => (Except.error i : Except Nat Unit)) 3 =
        (.raised e, 3)) ∧
    withRetry (fun _ => false) (fun i => (Except.error i : Except Nat Unit)) 3 =
      (.raised 0, 1) := by
  have h := with_retry_c1 (fun _ => true) (fun i => (Except.error i : Except Nat Unit))
    3 (by decide)
  have h' := with_retry_c1 (fun _ => false) (fun i => (Except.error i : Except Nat Unit))
    3 (by decide)
  exact ⟨h.1 (fun i _ => ⟨i, rfl, rfl⟩), h'.2 0 rfl rfl⟩

/-! ### Circuit breaker — `fusion_client/utils/retry.py`, class `CircuitBreaker` -/

/-- The `self.state` string: `"closed"`, `"open"`, `"half-open"`. -/
inductive CBState where
  | closed
  | opened
  | halfOpen
deriving DecidableEq, Repr

structure CircuitBreaker where
  threshold : Nat
  timeout : Nat
  recoveryTimeout : Nat
  failureCount : Nat
  lastFailureTime : Option Nat
  state : CBState
deriving DecidableEq, Repr

/-- `CircuitBreaker.__init__` with given `threshold`/`timeout`/`recovery_timeout`. -/
def CircuitBreaker.init (threshold timeout recoveryTimeout : Nat) : CircuitBreaker :=
  ⟨threshold, timeout, recoveryTimeout, 0, none, .closed⟩

/-- Python truthiness of `self.last_failure_time` (a float or `None`):
`None` and `0.0` are falsy. -/
def pyTruthyTime : Option Nat → Bool
  | none => false
  | some t => decide (t ≠ 0)

/-- `CircuitBreaker.can_execute`, which also performs the open → half-open
transition; returns the boolean result and the updated breaker.
The open branch tests `self.last_failure_time and now - self.last_failure_time
> self.timeout` (note the Python truthiness on the first conjunct). -/
def CircuitBreaker.canExecute (cb : CircuitBreaker) (now : Nat) :
    Bool × CircuitBreaker :=
  match cb.state with
  | .closed => (true, cb)
  | .opened =>
    if pyTruthyTime cb.lastFailureTime ∧
        cb.timeout < now - cb.lastFailureTime.getD 0 then
      (true, { cb with state := .halfOpen })
    else
      (false, cb)
  | .halfOpen => (true, cb)

/-- `CircuitBreaker.record_success`. -/
def CircuitBreaker.recordSuccess (cb : CircuitBreaker) : CircuitBreaker :=
  { cb with failureCount := 0, state := .closed, lastFailureTime := none }

/-- `CircuitBreaker.record_failure` at wall-clock time `now`. -/
def CircuitBreaker.recordFailure (cb : CircuitBreaker) (now : Nat) : CircuitBreaker :=
  let fc := cb.failureCount + 1
  { cb with
    failureCount := fc
    lastFailureTime := some now
    state := if cb.threshold ≤ fc then .opened else cb.state }

/-- Error surfaced by `CircuitBreaker.execute`: either the bare
`Exception("Circuit breaker is open")` raised before invoking the operation,
or an exception propagated from the operation itself. -/
inductive CBError (ε : Type) where
  | circuitOpen
  | fromOp (e : ε)
deriving DecidableEq, Repr

/-- `CircuitBreaker.execute` at wall-clock time `now`; `op` is the outcome
the wrapped function would produce if invoked.  Returns the caller-visible
result, whether the wrapped operation was invoked, and the updated breaker. -/
def CircuitBreaker.execute {α ε : Type} (cb : CircuitBreaker) (now : Nat)
    (op : Except ε α) : Except (CBError ε) α × Bool × CircuitBreaker :=
  match cb.canExecute now with
  | (false, cb₁) => (.error .circuitOpen, false, cb₁)
  | (true, cb₁) =>
    match op with
    | .ok v => (.ok v, true, cb₁.recordSuccess)
    | .error e => (.error (.fromOp e), true, cb₁.recordFailure now)

theorem foldl_recordFailure_count (times : List Nat) :
    ∀ cb : CircuitBreaker,
      (times.foldl CircuitBreaker.recordFailure cb).failureCount =
        cb.failureCount + times.length ∧
      (times.foldl CircuitBreaker.recordFailure cb).threshold = cb.threshold := by
  induction times with
  | nil => intro cb; simp
  | cons t ts ih =>
    intro cb
    obtain ⟨h1, h2⟩ := ih (cb.recordFailure t)
    constructor
    · rw [List.foldl_cons, h1]
      simp [CircuitBreaker.recordFailure]
      omega
    · rw [List.foldl_cons, h2]
      rfl

theorem foldl_recordFailure_opened (times : List Nat) :
    ∀ cb : CircuitBreaker, times ≠ [] →
      cb.threshold ≤ cb.failureCount + times.length →
      (times.foldl CircuitBreaker.recordFailure cb).state = .opened := by
  induction times with
  | nil => intro cb h; exact absurd rfl h
  | cons t ts ih =>
    intro cb _ hth
    match ts, ih with
    | [], _ =>
      simp only [List.foldl_cons, List.foldl_nil]
      simp only [List.length_cons, List.length_nil] at hth
      simp [CircuitBreaker.recordFailure, show cb.threshold ≤ cb.failureCount + 1 by omega]
    | t' :: ts', ih =>
      rw [List.foldl_cons]
      refine ih (cb.recordFailure t) (by simp) ?_
      simp only [CircuitBreaker.recordFailure, List.length_cons] at hth ⊢
      omega

/-- C2: circuit-breaker life cycle.
(a) from a closed breaker with zero failures, `threshold` consecutive
`record_failure`s (at any times) leave the state open;
(b) while open with a (nonzero) last-failure time `t` and `now - t` strictly
below `timeout`, `execute` raises without invoking the operation and changes
nothing;
(c) while open with `now - t` strictly above `timeout`, `execute` invokes the
operation as the half-open probe; a successful probe yields a closed breaker
with `failure_count = 0`, and a failing probe (when the open state was
reached with `failure_count ≥ threshold`) yields an open breaker whose
last-failure time is the probe time `now`. -/
theorem circuit_breaker_c2 {α ε : Type} (cb : CircuitBreaker) (now t : Nat)
    (times : List Nat) (op : Except ε α) :
    (cb.state = .closed → cb.failureCount = 0 → 1 ≤ cb.threshold →
      times.length = cb.threshold →
      (times.foldl CircuitBreaker.recordFailure cb).state = .opened) ∧
    (cb.state = .opened → cb.lastFailureTime = some t → 0 < t →
      now - t < cb.timeout →
      cb.execute now op = (.error .circuitOpen, false, cb)) ∧
    (cb.state = .opened → cb.lastFailureTime = some t → 0 < t →
      cb.timeout < now - t →
      (cb.execute now op).2.1 = true ∧
      (∀ v : α, op = .ok v →
        ((cb.execute now op).2.2.state = .closed ∧
          (cb.execute now op).2.2.failureCount = 0)) ∧
      (∀ e : ε, op = .error e → cb.threshold ≤ cb.failureCount →
        ((cb.execute now op).2.2.state = .opened ∧
          (cb.execute now op).2.2.lastFailureTime = some now))) := by
  refine ⟨?_, ?_, ?_⟩
  · intro _ hc0 hth hlen
    refine foldl_recordFailure_opened times cb ?_ ?_
    · intro h; rw [h] at hlen; simp at hlen; omega
    · omega
  · intro hs hlf ht hlt
    have hcan : cb.canExecute now = (false, cb) := by
      rw [CircuitBreaker.canExecute, hs]
      simp [hlf, pyTruthyTime, show ¬ cb.timeout < now - t by omega]
    rw [CircuitBreaker.execute, hcan]
  · intro hs hlf ht hgt
    have hcan : cb.canExecute now = (true, { cb with state := .halfOpen }) := by
      rw [CircuitBreaker.canExecute, hs]
      simp [hlf, pyTruthyTime, hgt]
      omega
    refine ⟨?_, ?_, ?_⟩
    · rw [CircuitBreaker.execute, hcan]
      cases op <;> rfl
    · intro v hop
      subst hop
      rw [CircuitBreaker.execute, hcan]
      exact ⟨rfl, rfl⟩
    · intro e hop hth
      subst hop
      rw [CircuitBreaker.execute, hcan]
      constructor
      · simp [CircuitBreaker.recordFailure, show cb.threshold ≤ cb.failureCount + 1 by omega]
      · rfl

/-- Witness for C2 on a concrete breaker (`threshold = 2`, `timeout = 10`):
two failures open the circuit; a call 5 seconds after the last failure is
rejected without invoking the operation; a call 11 seconds after invokes the
probe, and a failing probe re-opens the circuit stamped with the probe time. -/
theorem circuit_breaker_c2_witness :
    (([3, 4].foldl CircuitBreaker.recordFailure
        (CircuitBreaker.init 2 10 30)).state = .opened) ∧
    ((⟨2, 10, 30, 2, some 4, .opened⟩ : CircuitBreaker).execute 9
        (.error 0 : Except Nat Unit) = (.error .circuitOpen, false,
          ⟨2, 10, 30, 2, some 4, .opened⟩)) ∧
    ((⟨2, 10, 30, 2, some 4, .opened⟩ : CircuitBreaker).execute 15
        (.error 0 : Except Nat Unit)).2.1 = true ∧
    ((⟨2, 10, 30, 2, some 4, .opened⟩ : CircuitBreaker).execute 15
        (.error 0 : Except Nat Unit)).2.2.state = .opened ∧
    ((⟨2, 10, 30, 2, some 4, .opened⟩ : CircuitBreaker).execute 15
        (.error 0 : Except Nat Unit)).2.2.lastFailureTime = some 15 := by
  have h1 := circuit_breaker_c2 (α := Unit) (ε := Nat)
    (CircuitBreaker.init 2 10 30) 0 0 [3, 4] (.error 0)
  have h2 := circuit_breaker_c2 (α := Unit) (ε := Nat)
    (⟨2, 10, 30, 2, some 4, .opened⟩ : CircuitBreaker) 9 4 [] (.error 0)
  have h3 := circuit_breaker_c2 (α := Unit) (ε := Nat)
    (⟨2, 10, 30, 2, some 4, .opened⟩ : CircuitBreaker) 15 4 [] (.error 0)
  have h3c := h3.2.2 rfl rfl (by decide) (by decide)
  refine ⟨h1.1 rfl rfl (by decide) (by decide),
    h2.2.1 rfl rfl (by decide) (by decide),
    h3c.1, (h3c.2.2 0 rfl (by decide)).1, (h3c.2.2 0 rfl (by decide)).2⟩

/-! ### Exception taxonomy — `fusion_client/core/exceptions.py` -/

/-- The exception classes involved: Python's builtin `Exception` plus the
classes defined in `fusion_client/core/exceptions.py`. -/
inductive ExcClass where
  | exc                       -- builtins.Exception
  | fusionError               -- FusionError(Exception)
  | authenticationError       -- AuthenticationError(FusionError)
  | authorizationError        -- AuthorizationError(FusionError)
  | rateLimitError            -- RateLimitError(FusionError)
  | agentNotFoundError        -- AgentNotFoundError(FusionError)
  | chatNotFoundError         -- ChatNotFoundError(FusionError)
  | validationError           -- ValidationError(FusionError)
  | networkError              -- NetworkError(FusionError)
  | serverError               -- ServerError(FusionError)
  | timeoutError              -- TimeoutError(FusionError)
  | fileTooLargeError         -- FileTooLargeError(ValidationError)
  | unsupportedFileTypeError  -- UnsupportedFileTypeError(ValidationError)
deriving DecidableEq, Repr

/-- Immediate superclass, read off the `class C(B):` headers of
`fusion_client/core/exceptions.py`. -/
def ExcClass.superclass : ExcClass → Option ExcClass
  | .exc => none
  | .fusionError => some .exc
  | .authenticationError => some .fusionError
  | .authorizationError => some .fusionError
  | .rateLimitError => some .fusionError
  | .agentNotFoundError => some .fusionError
  | .chatNotFoundError => some .fusionError
  | .validationError => some .fusionError
  | .networkError => some .fusionError
  | .serverError => some .fusionError
  | .timeoutError => some .fusionError
  | .fileTooLargeError => some .validationError
  | .unsupportedFileTypeError => some .validationError

/-- The superclass chain of a class, itself included (fuel-bounded walk;
13 classes bound every chain). -/
def ExcClass.ancestorsAux : Nat → Option ExcClass → List ExcClass
  | 0, _ => []
  | _, none => []
  | fuel + 1, some c => c :: ExcClass.ancestorsAux fuel c.superclass

def ExcClass.ancestors (c : ExcClass) : List ExcClass :=
  ExcClass.ancestorsAux 13 (some c)

/-- `issubclass(c, d)` — also what `isinstance(e, d)` checks for an
exception `e` of class `c`, i.e. whether an `except d` clause catches it. -/
def ExcClass.isSubclassOf (c d : ExcClass) : Bool :=
  d ∈ c.ancestors

/-- The class of the error a `CircuitBreaker.execute` outcome raises:
the rejected path runs `raise Exception("Circuit breaker is open")` — the
bare builtin `Exception` — while the pass-through path re-raises the
operation's own exception class. -/
def cbErrorClass : CBError ExcClass → ExcClass
  | .circuitOpen => .exc
  | .fromOp c => c

/-- The error kinds of the taxonomy named by the claim: Authentication,
Authorization, RateLimit, NotFound (agent/chat), Validation, Network,
Timeout, Server, and the generic client error (the `FusionError` base). -/
def taxonomyClasses : List ExcClass :=
  [.authenticationError, .authorizationError, .rateLimitError,
   .agentNotFoundError, .chatNotFoundError, .validationError,
   .networkError, .timeoutError, .serverError, .fusionError]

/-- C9: a call rejected because the circuit is open (not invoked) raises the
`circuitOpen` error, whose class is the bare builtin `Exception`: it is not
(an instance of a subclass of) any taxonomy kind, so an
`isinstance(e, FusionError)` test distinguishes systemic unavailability from
every per-request classification. -/
theorem circuit_open_error_c9 {α : Type} (cb : CircuitBreaker) (now : Nat)
    (op : Except ExcClass α) :
    ((cb.execute now op).2.1 = false →
      (cb.execute now op).1 = .error .circuitOpen) ∧
    cbErrorClass .circuitOpen = .exc ∧
    (∀ k ∈ taxonomyClasses, ExcClass.isSubclassOf (cbErrorClass .circuitOpen) k = false) ∧
    (∀ k ∈ taxonomyClasses, cbErrorClass .circuitOpen ≠ k) := by
  refine ⟨?_, rfl, by decide, by decide⟩
  intro hni
  rw [CircuitBreaker.execute] at hni ⊢
  rcases hcan : cb.canExecute now with ⟨b, cb₁⟩
  cases b
  · rfl
  · exfalso
    cases op <;> (rw [hcan] at hni; simp at hni)

/-- Witness for C9 at a concrete open breaker: the rejected call's error is
`circuitOpen`, of class `Exception`, outside the whole taxonomy. -/
theorem circuit_open_error_c9_witness :
    ((⟨2, 10, 30, 2, some 4, .opened⟩ : CircuitBreaker).execute 9
      (.error .networkError : Except ExcClass Unit)).1 = .error .circuitOpen ∧
    cbErrorClass .circuitOpen = .exc ∧
    ExcClass.isSubclassOf (cbErrorClass .circuitOpen) .fusionError = false := by
  have h := circuit_open_error_c9 (α := Unit)
    (⟨2, 10, 30, 2, some 4, .opened⟩ : CircuitBreaker) 9 (.error .networkError)
  exact ⟨h.1 (by decide), h.2.1, h.2.2.1 .fusionError (by decide)⟩

/-! ### Stream buffer — `fusion_client/utils/streaming.py`, class `StreamBuffer` -/

/-- `StreamBuffer` state: the backing `asyncio.Queue(maxsize=max_size)`
contents in FIFO order plus the `closed` flag. -/
structure StreamBuffer (α : Type) where
  maxSize : Nat
  queue : List α
  closed : Bool
deriving DecidableEq, Repr

/-- Observable outcome of one `await put(item)`: either it returns with the
buffer in a given state, or it suspends because the queue is full
(`asyncio.Queue.put` blocks while full; a queue with `maxsize = 0` is never
full). -/
inductive PutOutcome (α : Type) where
  | returned (s : StreamBuffer α)
  | blocked
deriving DecidableEq, Repr

/-- `StreamBuffer.put`: `if not self.closed: await self.buffer.put(item)` —
after `close()` the item is silently discarded and the call returns at once. -/
def StreamBuffer.put {α : Type} (s : StreamBuffer α) (item : α) : PutOutcome α :=
  if s.closed then
    .returned s
  else if 0 < s.maxSize ∧ s.maxSize ≤ s.queue.length then
    .blocked
  else
    .returned { s with queue := s.queue ++ [item] }

/-- `StreamBuffer.close`: sets the flag only; queued items stay. -/
def StreamBuffer.close {α : Type} (s : StreamBuffer α) : StreamBuffer α :=
  { s with closed := true }

/-- C10: after `close()`, every `put(item)` returns immediately with the
buffer unchanged (the item silently discarded) — likewise on any buffer
whose `closed` flag is set — whereas `put` on a full, non-closed buffer
blocks. -/
theorem stream_buffer_put_after_close_c10 {α : Type} (s : StreamBuffer α) (item : α) :
    s.close.put item = .returned s.close ∧
    (s.closed = true → s.put item = .returned s) ∧
    (s.closed = false → 0 < s.maxSize → s.maxSize ≤ s.queue.length →
      s.put item = .blocked) := by
  refine ⟨?_, ?_, ?_⟩
  · rw [StreamBuffer.put]
    simp [StreamBuffer.close]
  · intro h
    rw [StreamBuffer.put, if_pos h]
  · intro hc h0 hfull
    rw [StreamBuffer.put]
    simp [hc, h0, hfull]

/-- Witness for C10 on a concrete closed-and-full buffer of capacity 2. -/
theorem stream_buffer_put_after_close_c10_witness :
    (StreamBuffer.close ⟨2, [10, 11], false⟩).put 12 =
      .returned (StreamBuffer.close ⟨2, [10, 11], false⟩) ∧
    StreamBuffer.put ⟨2, [10, 11], false⟩ 12 = .blocked := by
  have h := stream_buffer_put_after_close_c10 (⟨2, [10, 11], false⟩ : StreamBuffer Nat) 12
  exact ⟨h.1, h.2.2 rfl (by decide) (by decide)⟩

/-! ### Response cache — `fusion_client/utils/cache.py`, class `FusionCache`

The Python class keeps two dictionaries keyed identically: `_cache`
(`key -> (value, stored_at)`) and `_access_times` (`key -> accessed_at`);
every operation updates both in lockstep, so they are modelled as a single
association list (in dict insertion order) of entries carrying all three
fields. -/

structure CacheEntry (α : Type) where
  key : String
  value : α
  storedAt : Nat
  accessedAt : Nat
deriving DecidableEq, Repr

structure FusionCache (α : Type) where
  ttl : Nat
  maxSize : Nat
  entries : List (CacheEntry α)
deriving DecidableEq, Repr

/-- Dict lookup: the (first) binding of `k`. -/
def lookupEntry {α : Type} (k : String) : List (CacheEntry α) → Option (CacheEntry α)
  | [] => none
  | e :: es => if e.key = k then some e else lookupEntry k es

/-- `dict.pop(k)`: drop the binding of `k`, positions of the rest kept. -/
def removeKey {α : Type} (k : String) (es : List (CacheEntry α)) : List (CacheEntry α) :=
  es.filter (fun e => e.key != k)

/-- `self._access_times[key] = time.time()` inside `get` (LRU refresh). -/
def touchKey {α : Type} (k : String) (now : Nat) (es : List (CacheEntry α)) :
    List (CacheEntry α) :=
  es.map (fun e => if e.key = k then { e with accessedAt := now } else e)

/-- `FusionCache._is_expired`: `time.time() - timestamp > self.ttl`. -/
def isExpired (ttl now ts : Nat) : Bool :=
  ttl < now - ts

/-- `FusionCache.get` at wall-clock time `now`: returns the cached value (or
`none` when absent/expired) and the updated cache (expired entry popped,
live entry's access time refreshed). -/
def FusionCache.get {α : Type} (s : FusionCache α) (now : Nat) (k : String) :
    Option α × FusionCache α :=
  match lookupEntry k s.entries with
  | none => (none, s)
  | some e =>
    if isExpired s.ttl now e.storedAt then
      (none, { s with entries := removeKey k s.entries })
    else
      (some e.value, { s with entries := touchKey k now s.entries })

/-- `FusionCache._evict_expired` at time `now`: keep exactly the entries with
`now - stored_at <= ttl`. -/
def evictExpired {α : Type} (ttl now : Nat) (es : List (CacheEntry α)) :
    List (CacheEntry α) :=
  es.filter (fun e => !isExpired ttl now e.storedAt)

/-- Python's `min(keys, key=...)` over the access times: the first entry
attaining the minimal `accessed_at` (later entries replace the running best
only when strictly smaller). -/
def minAccessAux {α : Type} (b : CacheEntry α) : List (CacheEntry α) → CacheEntry α
  | [] => b
  | e :: es => if e.accessedAt < b.accessedAt then minAccessAux e es else minAccessAux b es

def minAccess {α : Type} : List (CacheEntry α) → Option (CacheEntry α)
  | [] => none
  | e :: es => some (minAccessAux e es)

/-- `FusionCache._evict_lru`: drop the least-recently-accessed entry
(no-op on an empty cache). -/
def evictLRU {α : Type} (es : List (CacheEntry α)) : List (CacheEntry α) :=
  match minAccess es with
  | none => es
  | some b => removeKey b.key es

theorem minAccessAux_mem {α : Type} :
    ∀ (es : List (CacheEntry α)) (b : CacheEntry α), minAccessAux b es ∈ b :: es := by
  intro es
  induction es with
  | nil => intro b; simp [minAccessAux]
  | cons e es ih =>
    intro b
    rw [minAccessAux]
    split_ifs
    · rcases List.mem_cons.mp (ih e) with h | h
      · simp [h]
      · simp [List.mem_cons, h]
    · rcases List.mem_cons.mp (ih b) with h | h
      · simp [h]
      · simp [List.mem_cons, h]

theorem removeKey_length_lt {α : Type} (b : CacheEntry α) :
    ∀ es : List (CacheEntry α), b ∈ es → (removeKey b.key es).length < es.length := by
  intro es
  induction es with
  | nil => intro h; cases h
  | cons e es ih =>
    intro hmem
    rw [removeKey, List.filter_cons]
    rcases List.mem_cons.mp hmem with rfl | hmem
    · simp only [bne_self_eq_false, if_neg, Bool.false_eq_true, not_false_iff,
        List.length_cons]
      have := List.length_filter_le (fun e => e.key != b.key) es
      omega
    · split_ifs
      · have := ih hmem
        simp only [List.length_cons]
        rw [removeKey] at this
        omega
      · have := ih hmem
        rw [removeKey] at this
        simp only [List.length_cons]
        omega

theorem evictLRU_length_lt {α : Type} (es : List (CacheEntry α)) (h : es ≠ []) :
    (evictLRU es).length < es.length := by
  match es, h with
  | e :: es, _ =>
    rw [evictLRU, minAccess]
    exact removeKey_length_lt _ _ (minAccessAux_mem es e)

/-- The `while len(self._cache) >= self.max_size: self._evict_lru()` loop of
`FusionCache.set`.  With `max_size = 0` and an empty cache the Python loop
never terminates (`_evict_lru` is a no-op there); the model exits instead,
and every theorem touching this loop assumes `1 <= max_size`, under which the
behaviours coincide. -/
def evictWhile {α : Type} (maxSize : Nat) (es : List (CacheEntry α)) :
    List (CacheEntry α) :=
  if h : maxSize ≤ es.length ∧ 0 < es.length then
    evictWhile maxSize (evictLRU es)
  else es
termination_by es.length
decreasing_by exact evictLRU_length_lt es (List.length_pos.mp h.2)

/-- Dict store `self._cache[key] = (value, now)`: overwrite in place, or
append a fresh binding at the end. -/
def insertEntry {α : Type} (k : String) (v : α) (now : Nat) :
    List (CacheEntry α) → List (CacheEntry α)
  | [] => [⟨k, v, now, now⟩]
  | e :: es => if e.key = k then ⟨k, v, now, now⟩ :: es else e :: insertEntry k v now es

/-- `FusionCache.set` at wall-clock time `now`: evict expired entries, evict
LRU entries while at or above capacity, then store the new item. -/
def FusionCache.set {α : Type} (s : FusionCache α) (now : Nat) (k : String) (v : α) :
    FusionCache α :=
  { s with entries := insertEntry k v now (evictWhile s.maxSize
      (evictExpired s.ttl now s.entries)) }

theorem lookupEntry_insertEntry {α : Type} (k : String) (v : α) (now : Nat) :
    ∀ es : List (CacheEntry α), lookupEntry k (insertEntry k v now es) =
      some ⟨k, v, now, now⟩ := by
  intro es
  induction es with
  | nil => simp [insertEntry, lookupEntry]
  | cons e es ih =>
    rw [insertEntry]
    split_ifs with h
    · simp [lookupEntry]
    · rw [lookupEntry, if_neg h, ih]

theorem lookupEntry_removeKey {α : Type} (k : String) :
    ∀ es : List (CacheEntry α), lookupEntry k (removeKey k es) = none := by
  intro es
  induction es with
  | nil => rfl
  | cons e es ih =>
    rw [removeKey, List.filter_cons]
    split_ifs with h
    · rw [lookupEntry, if_neg (by simpa using h), ← removeKey, ih]
    · rw [← removeKey, ih]

/-- C3: TTL visibility.
(a) `get` returns a value exactly when the key is bound and
`now - stored_at <= ttl`, and then returns the stored value;
(b) `get` immediately after `set` returns the value just stored;
(c) on an entry whose age exceeds `ttl`, `get` reports the key absent and
removes the entry. -/
theorem cache_ttl_c3 {α : Type} (s : FusionCache α) (now : Nat) (k : String) (v : α) :
    ((s.get now k).1 = (lookupEntry k s.entries).bind
        (fun e => if now - e.storedAt ≤ s.ttl then some e.value else none)) ∧
    (1 ≤ s.maxSize → ((s.set now k v).get now k).1 = some v) ∧
    (∀ e, lookupEntry k s.entries = some e → s.ttl < now - e.storedAt →
      (s.get now k).1 = none ∧ lookupEntry k (s.get now k).2.entries = none) := by
  refine ⟨?_, ?_, ?_⟩
  · rcases h : lookupEntry k s.entries with _ | e
    · simp [FusionCache.get, h]
    · simp only [FusionCache.get, h, Option.bind, isExpired, decide_eq_true_eq]
      split_ifs with h1 h2 h2 <;> first | rfl | omega
  · intro _
    simp [FusionCache.set, FusionCache.get, lookupEntry_insertEntry, isExpired]
  · intro e he hexp
    simp only [FusionCache.get, he, isExpired, decide_eq_true_eq]
    rw [if_pos hexp]
    exact ⟨rfl, lookupEntry_removeKey k s.entries⟩

/-- Witness for C3 on a concrete cache (`ttl = 10`): a fresh `set`+`get` at
time 100 returns the value; at time 111 the same entry (stored at 100) is
reported absent and removed. -/
theorem cache_ttl_c3_witness :
    ((FusionCache.set ⟨10, 5, []⟩ 100 "k" 7).get 100 "k").1 = some 7 ∧
    ((⟨10, 5, [⟨"k", 7, 100, 100⟩]⟩ : FusionCache Nat).get 111 "k").1 = none ∧
    lookupEntry "k" ((⟨10, 5, [⟨"k", 7, 100, 100⟩]⟩ : FusionCache Nat).get 111 "k").2.entries
      = none := by
  have h1 := cache_ttl_c3 (⟨10, 5, []⟩ : FusionCache Nat) 100 "k" 7
  have h2 := cache_ttl_c3 (⟨10, 5, [⟨"k", 7, 100, 100⟩]⟩ : FusionCache Nat) 111 "k" 7
  have h2c := h2.2.2 ⟨"k", 7, 100, 100⟩ (by rw [lookupEntry, if_pos rfl]) (by decide)
  exact ⟨h1.2.1 (by decide), h2c.1, h2c.2⟩

theorem insertEntry_length_le {α : Type} (k : String) (v : α) (now : Nat) :
    ∀ es : List (CacheEntry α), (insertEntry k v now es).length ≤ es.length + 1 := by
  intro es
  induction es with
  | nil => simp [insertEntry]
  | cons e es ih =>
    rw [insertEntry]
    split_ifs
    · simp
    · simp only [List.length_cons]
      omega

theorem evictWhile_length_lt {α : Type} (maxSize : Nat) (hms : 1 ≤ maxSize) :
    ∀ (n : Nat) (es : List (CacheEntry α)), es.length ≤ n →
      (evictWhile maxSize es).length < maxSize := by
  intro n
  induction n with
  | zero =>
    intro es h
    rw [evictWhile, dif_neg (show ¬(maxSize ≤ es.length ∧ 0 < es.length) by omega)]
    omega
  | succ n ih =>
    intro es h
    rw [evictWhile]
    split_ifs with hcond
    · refine ih _ ?_
      have := evictLRU_length_lt es (List.length_pos.mp hcond.2)
      omega
    · rcases Nat.eq_zero_or_pos es.length with h0 | h0
      · omega
      · have hnle : ¬ maxSize ≤ es.length := fun hle => hcond ⟨hle, h0⟩
        omega

theorem evictWhile_noop {α : Type} (maxSize : Nat) (es : List (CacheEntry α))
    (h : es.length < maxSize) : evictWhile maxSize es = es := by
  rw [evictWhile, dif_neg (show ¬(maxSize ≤ es.length ∧ 0 < es.length) by omega)]

theorem evictWhile_at_capacity {α : Type} (maxSize : Nat) (es : List (CacheEntry α))
    (h : es.length = maxSize) (hms : 1 ≤ maxSize) :
    evictWhile maxSize es = evictLRU es := by
  rw [evictWhile, dif_pos ⟨by omega, by omega⟩]
  refine evictWhile_noop _ _ ?_
  have := evictLRU_length_lt es (List.length_pos.mp (show 0 < es.length by omega))
  omega

theorem evictExpired_eq_self {α : Type} (ttl now : Nat) (es : List (CacheEntry α))
    (h : ∀ e ∈ es, now - e.storedAt ≤ ttl) : evictExpired ttl now es = es := by
  rw [evictExpired]
  apply List.filter_eq_self.mpr
  intro e he
  have := h e he
  simp [isExpired]
  omega

theorem insertEntry_fresh {α : Type} (k : String) (v : α) (now : Nat) :
    ∀ es : List (CacheEntry α), (∀ e ∈ es, e.key ≠ k) →
      insertEntry k v now es = es ++ [⟨k, v, now, now⟩] := by
  intro es
  induction es with
  | nil => simp [insertEntry]
  | cons e es ih =>
    intro h
    rw [insertEntry, if_neg (h e (by simp)), ih (fun e' h' => h e' (by simp [h']))]
    rfl

theorem minAccessAux_no_smaller {α : Type} :
    ∀ (es : List (CacheEntry α)) (b : CacheEntry α),
      (∀ e ∈ es, ¬ e.accessedAt < b.accessedAt) → minAccessAux b es = b := by
  intro es
  induction es with
  | nil => intro b _; rfl
  | cons e es ih =>
    intro b h
    rw [minAccessAux, if_neg (h e (by simp))]
    exact ih b (fun e' h' => h e' (by simp [h']))

theorem evictLRU_strict_head {α : Type} (e : CacheEntry α) (es : List (CacheEntry α))
    (hmin : ∀ e' ∈ es, e.accessedAt < e'.accessedAt)
    (hkeys : ∀ e' ∈ es, e'.key ≠ e.key) :
    evictLRU (e :: es) = es := by
  have hb := minAccessAux_no_smaller es e (fun e' h' => by have := hmin e' h'; omega)
  simp only [evictLRU, minAccess, hb]
  rw [removeKey, List.filter_cons]
  simp only [bne_self_eq_false, Bool.false_eq_true, if_false]
  exact List.filter_eq_self.mpr (fun e' h' => by simpa using hkeys e' h')

/-- Scenario driver for the capacity claim: the cache entry produced for a
(key, insertion-time) pair, with values supplied by `vOf`. -/
def entriesOfPairs {α : Type} (vOf : String → α) (ps : List (String × Nat)) :
    List (CacheEntry α) :=
  ps.map (fun p => ⟨p.1, vOf p.1, p.2, p.2⟩)

/-- Scenario driver: perform `set(k, vOf k)` at time `t` for every pair
`(k, t)` in order. -/
def insertSeq {α : Type} (vOf : String → α) (s : FusionCache α)
    (ps : List (String × Nat)) : FusionCache α :=
  ps.foldl (fun s p => s.set p.2 p.1 (vOf p.1)) s

theorem insertSeq_noEvict {α : Type} (vOf : String → α) (ttl maxSize : Nat) :
    ∀ (ps prior : List (String × Nat)),
      ((prior ++ ps).map Prod.fst).Nodup →
      (∀ p ∈ prior ++ ps, ∀ q ∈ prior ++ ps, q.2 - p.2 ≤ ttl) →
      prior.length + ps.length ≤ maxSize →
      insertSeq vOf ⟨ttl, maxSize, entriesOfPairs vOf prior⟩ ps =
        ⟨ttl, maxSize, entriesOfPairs vOf (prior ++ ps)⟩ := by
  intro ps
  induction ps with
  | nil => intro prior _ _ _; simp [insertSeq]
  | cons p rest ih =>
    intro prior hnd hspan hlen
    have hstep : FusionCache.set ⟨ttl, maxSize, entriesOfPairs vOf prior⟩ p.2 p.1 (vOf p.1) =
        ⟨ttl, maxSize, entriesOfPairs vOf (prior ++ [p])⟩ := by
      have h1 : evictExpired ttl p.2 (entriesOfPairs vOf prior) = entriesOfPairs vOf prior := by
        apply evictExpired_eq_self
        intro e he
        obtain ⟨q, hq, rfl⟩ := List.mem_map.mp he
        exact hspan q (by simp [hq]) p (by simp)
      have h2 : evictWhile maxSize (entriesOfPairs vOf prior) = entriesOfPairs vOf prior := by
        apply evictWhile_noop
        have : (entriesOfPairs vOf prior).length = prior.length := by
          simp [entriesOfPairs]
        simp only [List.length_cons] at hlen
        omega
      have hfresh : ∀ e ∈ entriesOfPairs vOf prior, e.key ≠ p.1 := by
        intro e he
        obtain ⟨q, hq, rfl⟩ := List.mem_map.mp he
        rw [List.map_append, List.nodup_append] at hnd
        intro heq
        have hqp : q.1 = p.1 := heq
        exact hnd.2.2 (List.mem_map_of_mem Prod.fst hq) (by simp [hqp])
      rw [FusionCache.set]
      simp only [h1, h2]
      rw [insertEntry_fresh p.1 (vOf p.1) p.2 _ hfresh]
      simp [entriesOfPairs]
    rw [insertSeq, List.foldl_cons, hstep]
    have hassoc : (prior ++ [p]) ++ rest = prior ++ p :: rest := by simp
    have := ih (prior ++ [p]) (by rw [hassoc]; exact hnd)
      (by rw [hassoc]; exact hspan)
      (by simp only [List.length_append, List.length_cons] at hlen ⊢; simp; omega)
    rw [insertSeq] at this
    rw [this, hassoc]

/-- C4: LRU capacity bound.
(a) After any completed `set` (on a cache with `max_size >= 1`) the number of
stored entries is at most `max_size` — hence no sequence of `set`s ever
exceeds it;
(b) inserting `max_size + 1` distinct keys (at increasing times, all within
`ttl` of each other so none expires) into an empty cache leaves exactly
`max_size` entries, and the evicted entry is the first-inserted one — the one
with the oldest access time. -/
theorem cache_lru_c4 {α : Type} (s : FusionCache α) (now : Nat) (k : String) (v : α)
    (vOf : String → α) (ttl maxSize : Nat) (ps : List (String × Nat)) :
    (1 ≤ s.maxSize → (s.set now k v).entries.length ≤ s.maxSize) ∧
    (1 ≤ maxSize → ps.length = maxSize + 1 →
      (ps.map Prod.fst).Nodup →
      (ps.map Prod.snd).Pairwise (· < ·) →
      (∀ p ∈ ps, ∀ q ∈ ps, q.2 - p.2 ≤ ttl) →
      (insertSeq vOf ⟨ttl, maxSize, []⟩ ps).entries.map CacheEntry.key =
          (ps.map Prod.fst).drop 1 ∧
        (insertSeq vOf ⟨ttl, maxSize, []⟩ ps).entries.length = maxSize) := by
  constructor
  · intro hms
    simp only [FusionCache.set]
    have h2 := evictWhile_length_lt s.maxSize hms
      (evictExpired s.ttl now s.entries).length (evictExpired s.ttl now s.entries) le_rfl
    have h3 := insertEntry_length_le k v now
      (evictWhile s.maxSize (evictExpired s.ttl now s.entries))
    omega
  · intro hms hlen hnd hpair hspan
    have hne : ps ≠ [] := by
      intro h
      rw [h] at hlen
      simp at hlen
    obtain ⟨front, lst, rfl⟩ : ∃ front lst, ps = front ++ [lst] :=
      ⟨ps.dropLast, ps.getLast hne, (List.dropLast_append_getLast hne).symm⟩
    have hflen : front.length = maxSize := by
      simp only [List.length_append, List.length_cons, List.length_nil] at hlen
      omega
    obtain ⟨f, front', rfl⟩ : ∃ f front', front = f :: front' := by
      cases front with
      | nil => exfalso; rw [List.length_nil] at hflen; omega
      | cons f fr => exact ⟨f, fr, rfl⟩
    rw [List.map_append, List.nodup_append] at hnd
    obtain ⟨hnd1, _, hdisj⟩ := hnd
    have hspanF : ∀ p ∈ (f :: front'), ∀ q ∈ (f :: front'), q.2 - p.2 ≤ ttl :=
      fun p hp q hq => hspan p (List.mem_append_left _ hp) q (List.mem_append_left _ hq)
    have hphase1 : insertSeq vOf ⟨ttl, maxSize, []⟩ (f :: front') =
        ⟨ttl, maxSize, entriesOfPairs vOf (f :: front')⟩ := by
      have h := insertSeq_noEvict vOf ttl maxSize (f :: front') []
        (by simpa using hnd1) (by simpa using hspanF) (by simp [hflen])
      simpa [show entriesOfPairs vOf ([] : List (String × Nat)) = [] from rfl] using h
    have hexp : evictExpired ttl lst.2 (entriesOfPairs vOf (f :: front')) =
        entriesOfPairs vOf (f :: front') := by
      apply evictExpired_eq_self
      intro e he
      obtain ⟨q, hq, rfl⟩ := List.mem_map.mp he
      exact hspan q (List.mem_append_left _ hq) lst (by simp)
    have hcap : (entriesOfPairs vOf (f :: front')).length = maxSize := by
      simpa [entriesOfPairs] using hflen
    simp only [List.cons_append, List.map_cons, List.pairwise_cons] at hpair
    obtain ⟨hfmin, _⟩ := hpair
    simp only [List.map_cons, List.nodup_cons] at hnd1
    obtain ⟨hfnotin, _⟩ := hnd1
    have hlru : evictLRU (entriesOfPairs vOf (f :: front')) = entriesOfPairs vOf front' := by
      have hsplit : entriesOfPairs vOf (f :: front') =
          ⟨f.1, vOf f.1, f.2, f.2⟩ :: entriesOfPairs vOf front' := rfl
      rw [hsplit]
      apply evictLRU_strict_head
      · intro e' he'
        obtain ⟨q, hq, rfl⟩ := List.mem_map.mp he'
        exact hfmin q.2 (by
          rw [List.map_append]
          exact List.mem_append_left _ (List.mem_map_of_mem Prod.snd hq))
      · intro e' he'
        obtain ⟨q, hq, rfl⟩ := List.mem_map.mp he'
        intro heq
        have hq1 : q.1 = f.1 := heq
        exact hfnotin (hq1 ▸ List.mem_map_of_mem Prod.fst hq)
    have hfresh : ∀ e ∈ entriesOfPairs vOf front', e.key ≠ lst.1 := by
      intro e he
      obtain ⟨q, hq, rfl⟩ := List.mem_map.mp he
      intro heq
      have hq1 : q.1 = lst.1 := heq
      exact hdisj (List.mem_map_of_mem Prod.fst (List.mem_cons_of_mem f hq))
        (by simp [hq1])
    have hfinal : insertSeq vOf ⟨ttl, maxSize, []⟩ ((f :: front') ++ [lst]) =
        ⟨ttl, maxSize, entriesOfPairs vOf front' ++ [⟨lst.1, vOf lst.1, lst.2, lst.2⟩]⟩ := by
      rw [insertSeq, List.foldl_append]
      rw [insertSeq] at hphase1
      rw [hphase1, List.foldl_cons, List.foldl_nil]
      simp only [FusionCache.set]
      rw [hexp, evictWhile_at_capacity maxSize _ hcap hms, hlru,
        insertEntry_fresh lst.1 (vOf lst.1) lst.2 _ hfresh]
    rw [hfinal]
    constructor
    · simp [entriesOfPairs]
    · simp only [entriesOfPairs, List.length_append, List.length_map, List.length_cons,
        List.length_nil]
      simp only [List.length_cons] at hflen
      omega

/-- Witness for C4: capacity 2, keys "a","b","c" inserted at times 1,2,3
(`ttl = 10`): the final cache holds exactly ["b", "c"] — "a", the
least-recently-accessed entry, was evicted; and a single `set` on a concrete
cache at capacity keeps the size at 2. -/
theorem cache_lru_c4_witness :
    ((⟨10, 2, [⟨"a", 0, 1, 1⟩, ⟨"b", 0, 2, 2⟩]⟩ : FusionCache Nat).set 3 "c" 0).entries.length
      ≤ 2 ∧
    (insertSeq (fun _ => 0) (⟨10, 2, []⟩ : FusionCache Nat)
        [("a", 1), ("b", 2), ("c", 3)]).entries.map CacheEntry.key = ["b", "c"] ∧
    (insertSeq (fun _ => 0) (⟨10, 2, []⟩ : FusionCache Nat)
        [("a", 1), ("b", 2), ("c", 3)]).entries.length = 2 := by
  have h := cache_lru_c4 (⟨10, 2, [⟨"a", 0, 1, 1⟩, ⟨"b", 0, 2, 2⟩]⟩ : FusionCache Nat)
    3 "c" 0 (fun _ => 0) 10 2 [("a", 1), ("b", 2), ("c", 3)]
  have h2 := h.2 (by decide) (by decide) (by decide) (by decide) (by decide)
  exact ⟨h.1 (by decide), h2.1, h2.2⟩

/-! ### Cache key generation — `fusion_client/utils/cache.py`, `_generate_key`

`_generate_key` computes
`md5(f"{method}:{url}:{json.dumps(params, sort_keys=True, default=str)}")`.
Parameter values are modelled as strings (`default=str` stringifies
everything before serialization); string escaping inside the JSON dump is
not modelled, which is harmless for the order-independence claim. -/

def jsonQuote (s : String) : String := "\"" ++ s ++ "\""

/-- The key order used by `json.dumps(..., sort_keys=True)`:
compare the (string) keys of the two items. -/
def keyLE (a b : String × String) : Prop := a.1 ≤ b.1

instance : DecidableRel keyLE := fun a b => inferInstanceAs (Decidable (a.1 ≤ b.1))

instance : IsTotal (String × String) keyLE := ⟨fun a b => le_total a.1 b.1⟩

instance : IsTrans (String × String) keyLE := ⟨fun _ _ _ => le_trans⟩

/-- `json.dumps(params, sort_keys=True)` on a flat string-valued dict:
serialize the items in ascending key order. -/
def jsonDumpsSorted (ps : List (String × String)) : String :=
  "\x7b" ++ String.intercalate ", "
    ((List.insertionSort keyLE ps).map (fun p => jsonQuote p.1 ++ ": " ++ jsonQuote p.2))
  ++ "\x7d"

/-- Stand-in for `hashlib.md5(data.encode()).hexdigest()` (an external
library primitive): the claims settled here depend only on the digest being
a deterministic function of its input string. -/
def md5Hex (s : String) : String := s

/-- `FusionCache._generate_key(method, url, params)`; `params = params or {}`
turns both `None` and the empty mapping into `{}`. -/
def generateKey (method url : String) (params : Option (List (String × String))) :
    String :=
  md5Hex (method ++ ":" ++ url ++ ":" ++ jsonDumpsSorted (params.getD []))

/-- The strict key order, used to see that a sorted list of items with
pairwise-distinct keys is unique among its permutations. -/
def keyLT (a b : String × String) : Prop := a.1 < b.1

instance : IsAntisymm (String × String) keyLT := ⟨fun _ _ h h' => absurd h' (lt_asymm h)⟩

theorem sorted_keyLT_of_nodup (l : List (String × String))
    (hs : List.Sorted keyLE l) (hn : (l.map Prod.fst).Nodup) :
    List.Sorted keyLT l := by
  have hn' : l.Pairwise (fun a b => a.1 ≠ b.1) := List.pairwise_map.mp hn
  exact (hs.and hn').imp (fun h => lt_of_le_of_ne h.1 h.2)

theorem insertionSort_keyLE_eq_of_perm (l₁ l₂ : List (String × String))
    (hp : l₁.Perm l₂) (hn : (l₁.map Prod.fst).Nodup) :
    List.insertionSort keyLE l₁ = List.insertionSort keyLE l₂ := by
  have hn₂ : (l₂.map Prod.fst).Nodup := ((hp.map Prod.fst).nodup_iff).mp hn
  have hn₁' : ((List.insertionSort keyLE l₁).map Prod.fst).Nodup :=
    (((List.perm_insertionSort keyLE l₁).map Prod.fst).nodup_iff).mpr hn
  have hn₂' : ((List.insertionSort keyLE l₂).map Prod.fst).Nodup :=
    (((List.perm_insertionSort keyLE l₂).map Prod.fst).nodup_iff).mpr hn₂
  have hperm : (List.insertionSort keyLE l₁).Perm (List.insertionSort keyLE l₂) :=
    (List.perm_insertionSort keyLE l₁).trans
      (hp.trans (List.perm_insertionSort keyLE l₂).symm)
  exact List.eq_of_perm_of_sorted hperm
    (sorted_keyLT_of_nodup _ (List.sorted_insertionSort keyLE l₁) hn₁')
    (sorted_keyLT_of_nodup _ (List.sorted_insertionSort keyLE l₂) hn₂')

/-- C5: cache-key order independence.  Two parameter mappings holding the
same key/value pairs in any insertion orders produce the same cache key, and
absent parameters (`None`) produce the same key as an empty mapping. -/
theorem cache_key_c5 (m u : String) (p1 p2 : List (String × String))
    (hperm : p1.Perm p2) (hnd : (p1.map Prod.fst).Nodup) :
    generateKey m u (some p1) = generateKey m u (some p2) ∧
    generateKey m u none = generateKey m u (some []) := by
  refine ⟨?_, rfl⟩
  simp only [generateKey, jsonDumpsSorted, Option.getD_some]
  rw [insertionSort_keyLE_eq_of_perm p1 p2 hperm hnd]

/-- Witness for C5: the mappings `{"b": "2", "a": "1"}` and
`{"a": "1", "b": "2"}` hash to the same key for `GET /x`. -/
theorem cache_key_c5_witness :
    generateKey "GET" "/x" (some [("b", "2"), ("a", "1")]) =
      generateKey "GET" "/x" (some [("a", "1"), ("b", "2")]) ∧
    generateKey "GET" "/x" none = generateKey "GET" "/x" (some []) := by
  have h := cache_key_c5 "GET" "/x" [("b", "2"), ("a", "1")] [("a", "1"), ("b", "2")]
    (by decide) (by decide)
  exact ⟨h.1, h.2⟩

/-! ### SSE streaming parser — `fusion_client/utils/streaming.py`

Lines and payloads are modelled as `List Char` (Python strings are
code-point sequences).  `json.loads` is an external library primitive:
`_parse_event_line` is parameterized over a decode function, and where a
concrete decoder is needed the minimal `jsonParseSimple` below (flat
string-keyed, string-valued objects and bare strings — the shapes the
claims exercise) stands in for it. -/

/-- Structured data produced by a successful JSON decode, restricted to the
shapes the claims exercise: bare strings and flat string-valued objects. -/
inductive JValue where
  | str (s : List Char)
  | obj (fields : List (List Char × List Char))
deriving DecidableEq, Repr

/-- The `"data"` entry of a parsed `data:` event: the decoded structure, or
the raw remainder string when decoding failed. -/
inductive SSEData where
  | json (j : JValue)
  | raw (s : List Char)
deriving DecidableEq, Repr

/-- The tagged dictionaries `_parse_event_line` returns
(`{"type": "done" | "data" | "event" | "id" | "retry", ...}`). -/
inductive SSEEvent where
  | done
  | data (d : SSEData)
  | event (name : List Char)
  | id (value : List Char)
  | retry (ms : Int)
deriving DecidableEq, Repr

/-- The whitespace set of Python's `str.strip()` (ASCII part; the claims'
inputs contain no other whitespace). -/
def pyWhitespace (c : Char) : Bool :=
  c == ' ' || c == '\t' || c == '\n' || c == '\r' || c == '\x0b' || c == '\x0c'

/-- Python `str.strip()`. -/
def pyStrip (s : List Char) : List Char :=
  ((s.dropWhile pyWhitespace).reverse.dropWhile pyWhitespace).reverse

/-- Python `str.startswith(pre)`. -/
def startsWith : List Char → List Char → Bool
  | [], _ => true
  | _ :: _, [] => false
  | p :: ps, c :: cs => p == c && startsWith ps cs

def digitsToNatAux : Nat → List Char → Option Nat
  | acc, [] => some acc
  | acc, c :: cs =>
    if c.isDigit then digitsToNatAux (acc * 10 + (c.toNat - 48)) cs else none

def digitsToNat : List Char → Option Nat
  | [] => none
  | cs => digitsToNatAux 0 cs

/-- Python `int(s)` on a decimal literal: optional surrounding whitespace,
optional sign, digits. -/
def pyInt (s : List Char) : Option Int :=
  match pyStrip s with
  | '-' :: rest => (digitsToNat rest).map (fun n => -(n : Int))
  | '+' :: rest => (digitsToNat rest).map (fun n => (n : Int))
  | t => (digitsToNat t).map (fun n => (n : Int))

/-- `StreamingParser._parse_event_line`, parameterized over the JSON decode
function (`json.loads`, returning `none` where Python raises
`JSONDecodeError`).  Note the `data.strip() == '[DONE]'` test: the payload
is *stripped* before the `[DONE]` comparison. -/
def parseEventLine (decode : List Char → Option JValue) (line : List Char) :
    Option SSEEvent :=
  if startsWith "data: ".toList line then
    if pyStrip (line.drop 6) = "[DONE]".toList then some .done
    else
      match decode (line.drop 6) with
      | some j => some (.data (.json j))
      | none => some (.data (.raw (line.drop 6)))
  else if startsWith "event: ".toList line then
    some (.event (line.drop 7))
  else if startsWith "id: ".toList line then
    some (.id (line.drop 4))
  else if startsWith "retry: ".toList line then
    match pyInt (line.drop 7) with
    | some n => some (.retry n)
    | none => none
  else
    none

/-- `self.buffer.split('\n', 1)`: the first complete line (without its
newline) and the rest, when the buffer contains a newline. -/
def splitFirstNL : List Char → Option (List Char × List Char)
  | [] => none
  | c :: cs =>
    if c = '\n' then some ([], cs)
    else (splitFirstNL cs).map (fun p => (c :: p.1, p.2))

theorem splitFirstNL_rest_lt :
    ∀ (l a b : List Char), splitFirstNL l = some (a, b) → b.length < l.length := by
  intro l
  induction l with
  | nil => intro a b h; simp [splitFirstNL] at h
  | cons c cs ih =>
    intro a b h
    rw [splitFirstNL] at h
    split_ifs at h with hc
    · simp only [Option.some.injEq, Prod.mk.injEq] at h
      obtain ⟨-, rfl⟩ := h
      simp
    · rcases hs : splitFirstNL cs with _ | ⟨p1, p2⟩
      · rw [hs] at h; simp at h
      · rw [hs] at h
        simp at h
        obtain ⟨-, rfl⟩ := h
        have := ih p1 p2 hs
        simp only [List.length_cons]
        omega

/-- `line.rstrip('\r')`: remove every trailing carriage return. -/
def stripCR (l : List Char) : List Char :=
  (l.reverse.dropWhile (fun c => c == '\r')).reverse

/-- The `while '\n' in self.buffer` loop body of
`StreamingParser.parse_stream`: extract every complete line from the buffer,
strip a trailing `'\r'`, skip blank lines, parse the rest; returns the
emitted events and the remaining (incomplete-line) buffer.  The loop
consumes at least one character (the newline) per iteration
(`splitFirstNL_rest_lt`), so fuel equal to the buffer length never runs
out. -/
def processBufferAux (decode : List Char → Option JValue) :
    Nat → List Char → List SSEEvent × List Char
  | 0, buf => ([], buf)
  | fuel + 1, buf =>
    match splitFirstNL buf with
    | none => ([], buf)
    | some (line, rest) =>
      let l := stripCR line
      let evs : List SSEEvent :=
        if l = [] then []
        else
          match parseEventLine decode l with
          | some e => [e]
          | none => []
      let more := processBufferAux decode fuel rest
      (evs ++ more.1, more.2)

def processBuffer (decode : List Char → Option JValue) (buf : List Char) :
    List SSEEvent × List Char :=
  processBufferAux decode buf.length buf

/-- `StreamingParser.parse_stream` over a list of already-decoded chunks:
append each chunk to the retained buffer and drain complete lines.  (The
`UnicodeDecodeError` skip is not reachable for the claims' inputs, which are
pure ASCII — there every byte offset is a character boundary.) -/
def parseStreamChunks (decode : List Char → Option JValue)
    (chunks : List (List Char)) : List SSEEvent :=
  (chunks.foldl
    (fun acc chunk =>
      let r := processBuffer decode (acc.2 ++ chunk)
      (acc.1 ++ r.1, r.2))
    ([], [])).1

def lookupField (k : List Char) : List (List Char × List Char) → Option (List Char)
  | [] => none
  | f :: fs => if f.1 = k then some f.2 else lookupField k fs

/-- The probe order of `TokenStreamer._extract_token`. -/
def tokenFields : List (List Char) :=
  ["token".toList, "content".toList, "text".toList, "delta".toList, "message".toList]

def extractFirstField : List (List Char) → List (List Char × List Char) →
    Option (List Char)
  | [], _ => none
  | f :: fs, fields =>
    match lookupField f fields with
    | some v => some v
    | none => extractFirstField fs fields

/-- `TokenStreamer._extract_token`: a plain-string payload passes through;
a dict payload is probed for the token fields in order (in the flat
string-valued objects modelled here every hit is already a string, so the
nested-`content` sub-probe of the Python code cannot trigger); anything else
yields no token. -/
def extractToken : SSEData → Option (List Char)
  | .raw s => some s
  | .json (.str s) => some s
  | .json (.obj fields) => extractFirstField tokenFields fields

/-- `TokenStreamer.stream_tokens` on a fully parsed event list: stop at the
first `done` event, yield the token of each `data` event (Python's
`if token:` also drops empty-string tokens). -/
def tokensOfEvents : List SSEEvent → List (List Char)
  | [] => []
  | .done :: _ => []
  | .data d :: rest =>
    (match extractToken d with
      | some t => if t = [] then [] else [t]
      | none => []) ++ tokensOfEvents rest
  | .event _ :: rest => tokensOfEvents rest
  | .id _ :: rest => tokensOfEvents rest
  | .retry _ :: rest => tokensOfEvents rest

/-- End-to-end token extraction from raw chunks. -/
def streamTokens (decode : List Char → Option JValue)
    (chunks : List (List Char)) : List (List Char) :=
  tokensOfEvents (parseStreamChunks decode chunks)

/-! #### A concrete JSON decoder for the claims' payloads -/

def skipSpaces (l : List Char) : List Char := l.dropWhile (fun c => c == ' ')

/-- Scan a JSON string body after its opening quote: content up to the
closing quote; escape sequences are not supported (decode fails). -/
def scanJString : List Char → Option (List Char × List Char)
  | [] => none
  | c :: rest =>
    if c = '"' then some ([], rest)
    else if c = '\\' then none
    else (scanJString rest).map (fun p => (c :: p.1, p.2))

/-- Parse one or more `"key": "value"` fields separated by commas
(fuel-bounded; callers pass the input length). -/
def parseJFieldsAux : Nat → List Char → Option (List (List Char × List Char) × List Char)
  | 0, _ => none
  | fuel + 1, l =>
    match skipSpaces l with
    | '"' :: rest =>
      match scanJString rest with
      | none => none
      | some (key, rest1) =>
        match skipSpaces rest1 with
        | ':' :: rest2 =>
          match skipSpaces rest2 with
          | '"' :: rest3 =>
            match scanJString rest3 with
            | none => none
            | some (val, rest4) =>
              match skipSpaces rest4 with
              | ',' :: rest5 =>
                (parseJFieldsAux fuel rest5).map (fun p => ((key, val) :: p.1, p.2))
              | rest5 => some ([(key, val)], rest5)
          | _ => none
        | _ => none
    | _ => none

/-- Minimal stand-in for `json.loads`, covering the payload shapes the
claims exercise: flat objects with string keys and string values, and bare
strings; every other input fails (as `json.loads` fails on e.g. ` [DONE]`). -/
def jsonParseSimple (s : List Char) : Option JValue :=
  match skipSpaces s with
  | '\x7b' :: rest =>
    match skipSpaces rest with
    | '\x7d' :: rest2 => if skipSpaces rest2 = [] then some (.obj []) else none
    | _ =>
      match parseJFieldsAux (rest.length + 1) rest with
      | some (fields, rest2) =>
        match skipSpaces rest2 with
        | '\x7d' :: rest3 => if skipSpaces rest3 = [] then some (.obj fields) else none
        | _ => none
      | none => none
  | '"' :: rest =>
    match scanJString rest with
    | some (body, rest1) => if skipSpaces rest1 = [] then some (.str body) else none
    | none => none
  | _ => none

/-- C6 counterexample: on the line `"data:  [DONE]"` (one extra space) the
remainder after the `'data: '` prefix is `" [DONE]"`, which is **not** the
literal `"[DONE]"` and is not decodable, yet the parser emits a `Done` event
(the code compares `data.strip()`, not `data`) instead of the `Data(raw)`
event the claim requires. -/
theorem sse_data_line_c6_counterexample :
    startsWith "data: ".toList "data:  [DONE]".toList = true ∧
    "data:  [DONE]".toList.drop 6 ≠ "[DONE]".toList ∧
    jsonParseSimple ("data:  [DONE]".toList.drop 6) = none ∧
    parseEventLine jsonParseSimple "data:  [DONE]".toList = some .done := by
  refine ⟨rfl, by decide, rfl, rfl⟩

/-- C6 (amended): for every complete line with the `'data: '` prefix, the
parser emits `Done` exactly when the remainder after the prefix, *stripped
of surrounding whitespace*, equals `"[DONE]"`; otherwise it emits a `Data`
event carrying the decoded payload when decoding succeeds and the raw
remainder string when it fails — and it always produces an event, never an
error. -/
theorem sse_data_line_c6 (decode : List Char → Option JValue) (line : List Char)
    (hpre : startsWith "data: ".toList line = true) :
    (parseEventLine decode line = some .done ↔
      pyStrip (line.drop 6) = "[DONE]".toList) ∧
    (pyStrip (line.drop 6) ≠ "[DONE]".toList →
      parseEventLine decode line =
        some (.data (match decode (line.drop 6) with
          | some j => .json j
          | none => .raw (line.drop 6)))) ∧
    (∃ e, parseEventLine decode line = some e) := by
  rw [parseEventLine, if_pos hpre]
  refine ⟨⟨?_, ?_⟩, ?_, ?_⟩
  · intro h
    by_cases hd : pyStrip (line.drop 6) = "[DONE]".toList
    · exact hd
    · rw [if_neg hd] at h
      rcases hdec : decode (line.drop 6) with _ | j <;> rw [hdec] at h <;> simp at h
  · intro hd
    rw [if_pos hd]
  · intro hd
    rw [if_neg hd]
    rcases hdec : decode (line.drop 6) with _ | j <;> rfl
  · by_cases hd : pyStrip (line.drop 6) = "[DONE]".toList
    · exact ⟨.done, by rw [if_pos hd]⟩
    · rw [if_neg hd]
      rcases hdec : decode (line.drop 6) with _ | j
      · exact ⟨_, rfl⟩
      · exact ⟨_, rfl⟩

/-- Witness for the amended C6 at the concrete line `"data: nope"`
(undecodable payload: the event carries the raw string, no error). -/
theorem sse_data_line_c6_witness :
    (parseEventLine jsonParseSimple "data: nope".toList = some .done ↔
      pyStrip ("data: nope".toList.drop 6) = "[DONE]".toList) ∧
    (pyStrip ("data: nope".toList.drop 6) ≠ "[DONE]".toList →
      parseEventLine jsonParseSimple "data: nope".toList =
        some (.data (match jsonParseSimple ("data: nope".toList.drop 6) with
          | some j => .json j
          | none => .raw ("data: nope".toList.drop 6)))) ∧
    (∃ e, parseEventLine jsonParseSimple "data: nope".toList = some e) :=
  sse_data_line_c6 jsonParseSimple "data: nope".toList (by decide)

/-- The SSE byte sequence of claim C7 (pure ASCII: every byte offset is a
character boundary, so byte-level chunking is character-level chunking). -/
def sseInput : List Char := "data: \x7b\"token\": \"Hello\"\x7d\n\n".toList

/-- C7: feeding the 26-byte sequence `data: {"token": "Hello"}\n\n` split
into two chunks at any offset `i ≤ 26` yields exactly the same single token
`"Hello"` as feeding it unsplit. -/
theorem sse_chunk_split_c7 (i : Nat) (hi : i ≤ 26) :
    streamTokens jsonParseSimple [sseInput.take i, sseInput.drop i] =
      ["Hello".toList] ∧
    streamTokens jsonParseSimple [sseInput] = ["Hello".toList] := by
  have h : ∀ j, j ≤ 26 →
      streamTokens jsonParseSimple [sseInput.take j, sseInput.drop j] =
        ["Hello".toList] := by decide
  exact ⟨h i hi, by decide⟩

/-- Witness for C7 at the split offset 13 (mid-payload). -/
theorem sse_chunk_split_c7_witness :
    streamTokens jsonParseSimple [sseInput.take 13, sseInput.drop 13] =
      ["Hello".toList] ∧
    streamTokens jsonParseSimple [sseInput] = ["Hello".toList] :=
  sse_chunk_split_c7 13 (by decide)

/-! ### Rate limiter — `fusion_client/utils/retry.py`, class `RateLimiter`

`self.calls` is the deque of recorded call timestamps.  `acquire` observes a
fresh `time.time()` at entry and at every recursive re-entry after a sleep:
those observations form the explicit `times` list (in chronological order).
When over budget the code computes
`sleep_time = window - (now - calls[0]) + 0.1`; after the prefix drop the
front timestamp satisfies `now - calls[0] <= window`, so `sleep_time > 0`
always holds and the over-budget branch always sleeps and re-enters
(`calls[0]` on an empty deque would raise `IndexError`, modelled as `none`,
which is also the result when the observation list runs out). -/

/-- The `while self.calls and now - self.calls[0] > self.window:
self.calls.popleft()` prefix drop. -/
def dropExpired (window now : Nat) : List Nat → List Nat
  | [] => []
  | t :: ts => if window < now - t then dropExpired window now ts else t :: ts

/-- `RateLimiter.acquire`: returns the final deque (with the admitted call's
timestamp appended) and the admission time, or `none` when admission never
happens within the given observations. -/
def acquireRun (maxCalls window : Nat) : List Nat → List Nat → Option (List Nat × Nat)
  | [], _ => none
  | now :: later, calls =>
    if maxCalls ≤ (dropExpired window now calls).length then
      match dropExpired window now calls with
      | [] => none
      | _ :: _ => acquireRun maxCalls window later (dropExpired window now calls)
    else
      some (dropExpired window now calls ++ [now], now)

/-- `RateLimiter.can_proceed`: drops the expired prefix (a mutation) and
reports whether a call could proceed; returns the flag and the new deque. -/
def canProceed (maxCalls window now : Nat) (calls : List Nat) : Bool × List Nat :=
  (decide ((dropExpired window now calls).length < maxCalls),
    dropExpired window now calls)

theorem dropExpired_suffix (window now : Nat) :
    ∀ calls : List Nat, (dropExpired window now calls).IsSuffix calls := by
  intro calls
  induction calls with
  | nil => simp [dropExpired]
  | cons t ts ih =>
    rw [dropExpired]
    split_ifs
    · exact ih.trans (List.suffix_cons t ts)
    · exact List.suffix_refl _

theorem dropExpired_expired (window now : Nat) :
    ∀ (calls : List Nat) (t : Nat), t ∈ calls → t ∉ dropExpired window now calls →
      window < now - t := by
  intro calls
  induction calls with
  | nil => intro t ht _; cases ht
  | cons u ts ih =>
    intro t ht htn
    rw [dropExpired] at htn
    split_ifs at htn with hu
    · rcases List.mem_cons.mp ht with rfl | ht'
      · exact hu
      · exact ih t ht' htn
    · exact absurd ht htn

theorem acquireRun_now_mem (maxCalls window : Nat) :
    ∀ (times calls res : List Nat) (now : Nat),
      acquireRun maxCalls window times calls = some (res, now) → now ∈ times := by
  intro times
  induction times with
  | nil => intro calls res now h; simp [acquireRun] at h
  | cons now₀ later ih =>
    intro calls res now h
    rw [acquireRun] at h
    split_ifs at h with hlim
    · rcases hc : dropExpired window now₀ calls with _ | ⟨t0, c'⟩
      · rw [hc] at h; simp at h
      · rw [hc] at h
        exact List.mem_cons_of_mem now₀ (ih _ res now h)
    · simp only [Option.some.injEq, Prod.mk.injEq] at h
      exact h.2 ▸ List.mem_cons_self now₀ later

theorem acquireRun_spec (maxCalls window : Nat) :
    ∀ (times : List Nat), times.Pairwise (· ≤ ·) →
    ∀ (calls res : List Nat) (now : Nat),
      acquireRun maxCalls window times calls = some (res, now) →
      ∃ d, res = d ++ [now] ∧ d.length < maxCalls ∧ d.IsSuffix calls ∧
        (∀ t ∈ calls, t ∉ d → window < now - t) := by
  intro times
  induction times with
  | nil => intro _ calls res now h; simp [acquireRun] at h
  | cons now₀ later ih =>
    intro hmono calls res now h
    obtain ⟨hle, hrest⟩ := List.pairwise_cons.mp hmono
    rw [acquireRun] at h
    split_ifs at h with hlim
    · rcases hc : dropExpired window now₀ calls with _ | ⟨t0, c'⟩
      · rw [hc] at h; simp at h
      · rw [hc] at h
        obtain ⟨d, hres, hdlen, hdsuff, hdrop⟩ := ih hrest _ res now h
        have hnow : now₀ ≤ now := hle now (acquireRun_now_mem maxCalls window later _ res now h)
        refine ⟨d, hres, hdlen, hdsuff.trans (hc ▸ dropExpired_suffix window now₀ calls), ?_⟩
        intro t ht htn
        by_cases hmem : t ∈ dropExpired window now₀ calls
        · exact hdrop t (hc ▸ hmem) htn
        · have h1 := dropExpired_expired window now₀ calls t ht hmem
          omega
    · simp only [Option.some.injEq, Prod.mk.injEq] at h
      obtain ⟨hres, hnow⟩ := h
      subst hnow
      refine ⟨dropExpired window now₀ calls, hres.symm, by omega,
        dropExpired_suffix window now₀ calls, ?_⟩
      intro t ht htn
      exact dropExpired_expired window now₀ calls t ht htn

/-- C8: rate-limiter admission invariant.  For chronologically ordered
observation times, a completed `acquire` leaves the deque as
`d ++ [now]` where `d` is a suffix of the entry deque with
`len(d) < max_calls` — so the final deque (and a fortiori the calls within
the trailing window) has at most `max_calls` entries, exactly one new
timestamp was recorded, and every timestamp removed along the way was
expired (older than `window` before the admission time): admission is by
waiting, never by dropping an in-window call.  A completed `can_proceed`
only drops expired entries and so also preserves the bound. -/
theorem rate_limiter_c8 (maxCalls window : Nat) (times calls res : List Nat)
    (now : Nat) (hmono : times.Pairwise (· ≤ ·)) :
    (acquireRun maxCalls window times calls = some (res, now) →
      ∃ d, res = d ++ [now] ∧ d.length + 1 ≤ maxCalls ∧ res.length ≤ maxCalls ∧
        d.IsSuffix calls ∧ (∀ t ∈ calls, t ∉ d → window < now - t)) ∧
    (calls.length ≤ maxCalls → ((canProceed maxCalls window now calls).2).length ≤ maxCalls) := by
  constructor
  · intro h
    obtain ⟨d, hres, hdlen, hdsuff, hdrop⟩ := acquireRun_spec maxCalls window times
      hmono calls res now h
    refine ⟨d, hres, by omega, ?_, hdsuff, hdrop⟩
    rw [hres, List.length_append, List.length_singleton]
    omega
  · intro hlen
    have := (dropExpired_suffix window now calls).length_le
    simp only [canProceed]
    omega

/-- Witness for C8: `max_calls = 2`, `window = 10`, entry deque `[50, 95]`,
one observation at time 100: the expired call 50 is dropped, 95 is kept, the
admitted call is recorded, and the resulting deque `[95, 100]` respects the
bound; `can_proceed` at the same instant also respects it. -/
theorem rate_limiter_c8_witness :
    (∃ d, ([95, 100] : List Nat) = d ++ [100] ∧ d.length + 1 ≤ 2 ∧
      ([95, 100] : List Nat).length ≤ 2 ∧ d.IsSuffix [50, 95] ∧
      (∀ t ∈ ([50, 95] : List Nat), t ∉ d → 10 < 100 - t)) ∧
    ((canProceed 2 10 100 [50, 95]).2).length ≤ 2 := by
  have h := rate_limiter_c8 2 10 [100] [50, 95] [95, 100] 100 (by decide)
  exact ⟨h.1 (by decide), h.2 (by decide)⟩
